import Mathlib

/-!
Verification development for the snippy repository (block extraction engine and
block application engine).

Shallow embedding conventions:
* Text is represented as `Str := List Char`; all modelled inputs are ASCII, and
  byte indices of the Rust code coincide with character indices.
* The five regular expressions of `DelimiterIdentifier::new`
  (src/src/content_extractor/delimiter_identifier.rs) are line-anchored
  (`(?m)^...`); they are modelled as classifiers applied per line, with a
  match's reported span being the matched line.  The `\s` character class of
  the Rust regex crate also matches newlines: the `\s*` preceding the captures
  of the filename-directive and diff-source regexes is modelled faithfully
  (`captureToEol` — a capture may come from a line after the marker line),
  while the remaining cross-newline cases (whitespace-only lines adjacent to a
  marker line, and multi-line matches of the block/HTML-comment directive
  alternatives) are outside the modelled fragment and absent from every input
  considered in this file.  `\w` and `\s` are modelled at their ASCII core.
* The filesystem and the diagnostics directory are modelled by an explicit
  `World` state: a finite map from paths to contents, the list of diagnostic
  records written so far, and a counter of file-write operations.
* The external `diffy` crate (unified diff parsing and application) is kept
  abstract: functions that call it take a `Diffy` oracle as an argument.
-/

abbrev Str := List Char

def str (s : String) : Str := s.toList

/-- ASCII core of the regex class `\s` (also used for Rust `char::is_whitespace`
on the ASCII inputs considered here). -/
def isWsChar (c : Char) : Bool :=
  c = ' ' || c = '\t' || c = '\n' || c = '\r' || c = '\x0b' || c = '\x0c'

/-- ASCII core of the regex class `\w`. -/
def isWordChar (c : Char) : Bool :=
  c.isAlphanum || c = '_'

/-- Split off the first line of a character list: the content before the first
newline, and the remainder after it (`none` if there is no newline). -/
def lineBreak : Str → Str × Option Str
  | [] => ([], none)
  | c :: rest =>
    if c = '\n' then ([], some rest)
    else
      let p := lineBreak rest
      (c :: p.1, p.2)

/-- Fuel-driven line splitter; `fuel` bounds the number of newlines consumed. -/
def linesFromAux : Nat → Nat → Str → List (Nat × Str)
  | 0, pos, s => [(pos, s)]
  | fuel + 1, pos, s =>
    match lineBreak s with
    | (l, none) => [(pos, l)]
    | (l, some rest) => (pos, l) :: linesFromAux fuel (pos + l.length + 1) rest

/-- The lines of a text, each paired with the index of its first character. -/
def linesOf (content : Str) : List (Nat × Str) :=
  linesFromAux content.length 0 content

def dropLeadWs (l : Str) : Str := l.dropWhile isWsChar

/-- Model of the fence-open regex `(?m)^\s*(BT)(BT)(BT)(\w+)\s*$` where BT is a
backtick: returns the captured language tag of a fence-open line. -/
def fenceLang (l : Str) : Option Str :=
  match dropLeadWs l with
  | '`' :: '`' :: '`' :: rest =>
    let lang := rest.takeWhile isWordChar
    let after := rest.dropWhile isWordChar
    if !lang.isEmpty && after.all isWsChar then some lang else none
  | _ => none

/-- Model of the fence-close regex `(?m)^\s*(BT)(BT)(BT)\s*$`. -/
def isEndFenceLine (l : Str) : Bool :=
  match dropLeadWs l with
  | '`' :: '`' :: '`' :: rest => rest.all isWsChar
  | _ => false

def trimEndList (s : Str) : Str := (s.reverse.dropWhile isWsChar).reverse

def trimList (s : Str) : Str := trimEndList (s.dropWhile isWsChar)

/-- Model of the heading regex `(?m)^\s*#-runs\s*BT?([^BT\s]+)BT?` (BT a
backtick): the captured heading token of a heading line. -/
def headingCapture (l : Str) : Option Str :=
  let l1 := dropLeadWs l
  if l1.head? = some '#' then
    let rest := l1.dropWhile (fun c => c = '#')
    let rest2 := rest.dropWhile isWsChar
    let rest3 := if rest2.head? = some '`' then rest2.tail else rest2
    let tok := rest3.takeWhile (fun c => !isWsChar c && c ≠ '`')
    if tok.isEmpty then none else some tok
  else none

def afterLit (lit x : Str) : Option Str :=
  if lit.isPrefixOf x then some (x.drop lit.length) else none

/-- Longest prefix of `x` that is followed by an occurrence of `pat`
(the text before the last occurrence of `pat` in `x`). -/
def beforeLastOcc (pat x : Str) : Option Str :=
  (((List.range (x.length + 1)).filter (fun i => pat.isPrefixOf (x.drop i))).getLast?).map
    (fun i => x.take i)

/-- Whitespace other than the newline: leading `\s*` consumed within the
matched line itself. -/
def isLineWs (c : Char) : Bool := isWsChar c && c ≠ '\n'

/-- Model of `\s*(.+)` applied to the text `x` that follows `filename:`
(respectively `---`), continuing past line ends, composed with the `.trim()`
the Rust code applies to the capture.  The greedy `\s*` crosses newlines, so
the capture starts at the first non-whitespace character — possibly on a later
line — and runs to the end of that character's line.  When only whitespace
remains to the end of the text, the regex backtracks and captures a single
whitespace character (which trims to the empty string) provided some
non-newline character is available for `.` to match; otherwise there is no
match. -/
def captureToEol (x : Str) : Option Str :=
  match x.dropWhile isWsChar with
  | [] => if x.any (fun c => c ≠ '\n') then some [] else none
  | c :: rest => some (trimList ((c :: rest).takeWhile (fun d => d ≠ '\n')))

/-- First alternative of the filename-directive regex,
`^\s*(?://|#)\s*filename:\s*(.+)`, applied to the text from the start of the
matched line to the end of the input (the comment marker sits on the matched
line; the capture may extend to a later line via `captureToEol`). -/
def lineCommentFilename (x : Str) : Option Str :=
  let afterMark : Option Str :=
    match x.dropWhile isLineWs with
    | '/' :: '/' :: r => some r
    | '#' :: r => some r
    | _ => none
  afterMark.bind fun r =>
    match afterLit (str "filename:") (r.dropWhile isWsChar) with
    | some rest => captureToEol rest
    | none => none

/-- Second alternative of the filename-directive regex: a block comment
`/* filename: ... */` (greedy capture up to the last close marker), modelled
for single-line matches; multi-line matches of this alternative (possible
because its inner `\s` classes can cross newlines) are outside the modelled
fragment and absent from every input considered here. -/
def blockCommentFilename (l : Str) : Option Str :=
  match afterLit (str "/*") (dropLeadWs l) with
  | none => none
  | some r =>
    match afterLit (str "filename:") (r.dropWhile isWsChar) with
    | none => none
    | some rest =>
      match beforeLastOcc (str "*/") rest with
      | none => none
      | some body => if body.isEmpty then none else some (trimList body)

/-- Third alternative of the filename-directive regex: an HTML comment
directive, modelled for single-line matches like `blockCommentFilename`. -/
def htmlCommentFilename (l : Str) : Option Str :=
  match afterLit (str "<!--") (dropLeadWs l) with
  | none => none
  | some r =>
    match afterLit (str "filename:") (r.dropWhile isWsChar) with
    | none => none
    | some rest =>
      match beforeLastOcc (str "-->") rest with
      | none => none
      | some body => if body.isEmpty then none else some (trimList body)

/-- The three alternatives of `filename_re`, in their alternation order;
`x` is the text from the start of the matched line to the end of the input,
`l` that line alone. -/
def directiveCapture (x l : Str) : Option Str :=
  (lineCommentFilename x).orElse fun _ =>
    (blockCommentFilename l).orElse fun _ => htmlCommentFilename l

/-- Model of `diff_file_re`, `^\s*---\s*(.+)`: a unified-diff source line,
whose capture may extend to a later line exactly as in `lineCommentFilename`. -/
def diffLineFilename (x : Str) : Option Str :=
  match afterLit (str "---") (x.dropWhile isLineWs) with
  | none => none
  | some rest => captureToEol rest

/-- The `filenames` hash map of `identify_delimiters`, keyed by the match start
index (= the line start in the line-local model): a directive capture or a
diff-source-line capture.  The line shapes are disjoint (they begin with
distinct markers), so the insertion order of the two scans is immaterial. -/
def fnameAt (content : Str) (lines : List (Nat × Str)) (idx : Nat) : Option Str :=
  (List.lookup idx lines).bind fun l =>
    (directiveCapture (content.drop idx) l).orElse fun _ =>
      diffLineFilename (content.drop idx)

/-- The `headings` vector of `identify_delimiters`. -/
def headingsOf (lines : List (Nat × Str)) : List (Nat × Str) :=
  lines.filterMap fun pl => (headingCapture pl.2).map fun t => (pl.1, t)

inductive BlockType where
  | FullContent
  | UnifiedDiff
  | SearchReplaceBlock
deriving DecidableEq, Repr

/-- The language-tag dispatch of `identify_delimiters` (lines 91-97). -/
def tagToType (lang : Str) : BlockType :=
  if lang = str "diff" then BlockType.UnifiedDiff
  else if lang = str "replace" then BlockType.SearchReplaceBlock
  else BlockType.FullContent

structure ParsedBlock where
  filename : Str
  content : Str
  block_type : BlockType
deriving DecidableEq, Repr

structure DelimitedBlock where
  start_index : Nat
  content_start : Nat
  is_start : Bool
  filename : Option Str
  block_type : BlockType
deriving DecidableEq, Repr

/-- `a/`-or-`b/` git-diff prefix stripping applied to every resolved filename
(delimiter_identifier.rs lines 133-139): strips one leading `a/` or `b/`. -/
def stripAB (f : Str) : Str :=
  if (str "a/").isPrefixOf f || (str "b/").isPrefixOf f then f.drop 2 else f

/-- Index of the first newline at or after position `i`. -/
def findNewlineFrom (content : Str) (i : Nat) : Option Nat :=
  ((content.drop i).findIdx? (fun c => c = '\n')).map (fun k => i + k)

def charAt (content : Str) (i : Nat) : Option Char := content[i]?

/-- Construction of one fence-open marker (delimiter_identifier.rs lines
83-148).  `prevStart` is `delimiters.last().start_index` at that point in the
scan, i.e. the start of the previous fence-open marker (0 if none). -/
def mkStartDelim (content : Str) (lines headings : List (Nat × Str))
    (prevStart p : Nat) (l lang : Str) : DelimitedBlock :=
  let end_index := p + l.length
  let bt := tagToType lang
  let filename_index :=
    match findNewlineFrom content end_index with
    | some k => k + 1
    | none => end_index
  let content_start :=
    if (fnameAt content lines filename_index).isSome && bt ≠ BlockType.UnifiedDiff then
      match findNewlineFrom content filename_index with
      | some k => k + 1
      | none => filename_index
    else if charAt content end_index = some '\n' then end_index + 1
    else if charAt content end_index = some '\r' &&
        charAt content (end_index + 1) = some '\n' then end_index + 2
    else end_index
  let fname0 :=
    (fnameAt content lines filename_index).orElse fun _ =>
      ((headings.reverse.find? fun h =>
          decide (h.1 < p) && decide (prevStart ≤ h.1)).map (fun h => h.2))
  ⟨p, content_start, !lang.isEmpty, fname0.map stripAB, bt⟩

/-- The fence-open scan of `identify_delimiters`: walks the lines in order,
threading the start index of the previous fence-open marker. -/
def buildStarts (content : Str) (lines headings : List (Nat × Str)) :
    List (Nat × Str) → Nat → List DelimitedBlock
  | [], _ => []
  | (p, l) :: rest, prevStart =>
    match fenceLang l with
    | some lang =>
      mkStartDelim content lines headings prevStart p l lang ::
        buildStarts content lines headings rest p
    | none => buildStarts content lines headings rest prevStart

/-- The fence-close scan of `identify_delimiters` (lines 151-161). -/
def endDelims (lines : List (Nat × Str)) : List DelimitedBlock :=
  lines.filterMap fun pl =>
    if isEndFenceLine pl.2 then
      some ⟨pl.1, pl.1 + pl.2.length, false, none, BlockType.FullContent⟩
    else none

def insertByStart (d : DelimitedBlock) : List DelimitedBlock → List DelimitedBlock
  | [] => [d]
  | e :: es =>
    if d.start_index ≤ e.start_index then d :: e :: es else e :: insertByStart d es

/-- `delimiters.sort_by_key(|d| d.start_index)`; on the distinct keys produced
here any correct sort yields the same list as Rust's stable sort. -/
def sortByStart : List DelimitedBlock → List DelimitedBlock
  | [] => []
  | d :: ds => insertByStart d (sortByStart ds)

inductive ContentFormatErr where
  | formatError (msg : Str)
deriving DecidableEq, Repr

/-- Model of `DelimiterIdentifier::identify_delimiters`. -/
def identifyDelimiters (content : Str) : Except ContentFormatErr (List DelimitedBlock) :=
  let lines := linesOf content
  let headings := headingsOf lines
  let ds := sortByStart (buildStarts content lines headings lines 0 ++ endDelims lines)
  if ds.isEmpty then Except.error (ContentFormatErr.formatError (str "No delimiters found"))
  else Except.ok ds

/-- `content[start..end]` on the modelled text. -/
def sliceStr (content : Str) (a b : Nat) : Str := (content.drop a).take (b - a)

/-- The stack loop of `BlockExtractor::extract_blocks` (block_extractor.rs
lines 29-54): push fence-opens, pop on fence-closes, and emit a block when the
pop empties the stack and the popped marker carries a filename. -/
def processLoop (content : Str) :
    List DelimitedBlock → List DelimitedBlock → List ParsedBlock → List ParsedBlock
  | [], _, blocks => blocks
  | d :: rest, stack, blocks =>
    if d.is_start then
      processLoop content rest (d :: stack) blocks
    else
      match stack with
      | [] => processLoop content rest [] blocks
      | top :: stack' =>
        if stack'.isEmpty then
          match top.filename with
          | some fname =>
            processLoop content rest stack'
              (blocks ++ [⟨fname, sliceStr content top.content_start d.start_index, top.block_type⟩])
          | none => processLoop content rest stack' blocks
        else
          processLoop content rest stack' blocks

def processDelims (content : Str) (ds : List DelimitedBlock) : List ParsedBlock :=
  processLoop content ds [] []

/-- Model of `BlockExtractor::extract_blocks`: identify delimiters (propagating
`NoDelimitersFound`) and run the stack loop. -/
def extractBlocks (content : Str) : Except ContentFormatErr (List ParsedBlock) :=
  match identifyDelimiters content with
  | Except.error e => Except.error e
  | Except.ok ds => Except.ok (processDelims content ds)

/-! ## Filesystem and diagnostics state -/

/-- Diagnostic record schema of logger.rs (struct DiagnosticInfo). -/
structure DiagnosticInfo where
  file_path : Str
  error_message : Str
  current_content : Option Str
  diff_content : Option Str
deriving DecidableEq, Repr

/-- The observable state an applier call can touch: the files (path to
content), the diagnostic artifacts written so far (logger.rs writes each one as
a JSON file under the logs directory; they are modelled as a list of records),
and a counter of file-write operations. -/
structure World where
  fs : Str → Option Str
  diags : List DiagnosticInfo
  writes : Nat

/-- `write_file_async` / `tokio::fs::write`: store the content and count one
write operation (directory creation is not modelled). -/
def fsWrite (w : World) (p c : Str) : World :=
  { w with fs := fun q => if q = p then some c else w.fs q, writes := w.writes + 1 }

/-- `remove_file_async` / `tokio::fs::remove_file` deletes the file; it fails
when the file does not exist. -/
def fsRemoveOk (w : World) (p : Str) : World :=
  { w with fs := fun q => if q = p then none else w.fs q }

/-- `base_path.join(filename)`, modelled as separator concatenation (adequate
for the relative filenames considered; no claim depends on path semantics). -/
def joinPath (base fname : Str) : Str := base ++ '/' :: fname

inductive ClipboardError where
  | contentApplicationError (msg : Str)
  | ioError (msg : Str)
  | diffError (msg : Str)
deriving DecidableEq, Repr

inductive FileOperationError where
  | readError (path msg : Str)
  | writeError (path msg : Str)
deriving DecidableEq, Repr

inductive DiffApplicationError where
  | diffParseError (msg : Str)
  | diffApplyError (msg : Str)
  | fileOpError (e : FileOperationError)
deriving DecidableEq, Repr

/-! ## Rust string primitives used by the appliers -/

/-- One scan step bound by `fuel ≥ x.length`: model of Rust
`str::replace(search, repl)` (leftmost, non-overlapping, all occurrences).
The call sites below always pass a non-empty `search`. -/
def replaceListAux (fuel : Nat) (search repl : Str) (x : Str) : Str :=
  match fuel, x with
  | _, [] => []
  | 0, x => x
  | fuel + 1, c :: cs =>
    if !search.isEmpty && search.isPrefixOf (c :: cs) then
      repl ++ replaceListAux fuel search repl ((c :: cs).drop search.length)
    else
      c :: replaceListAux fuel search repl cs

def replaceList (x search repl : Str) : Str := replaceListAux x.length search repl x

/-- Rust `str::contains(pat)` for string patterns. -/
def containsList : Str → Str → Bool
  | x, s =>
    if s.isPrefixOf x then true
    else
      match x with
      | [] => false
      | _ :: t => containsList t s

/-- `content.replace("\r\n", "\n")`. -/
def normalizeCRLF (x : Str) : Str := replaceList x (str "\r\n") (str "\n")

/-! ## Search-replace applier (search_replace_applier.rs; the vendored
`ContentApplier::apply_search_replace` is line-for-line the same logic) -/

/-- The SEARCH/REPLACE pair grammar
`(?s)<<<+\s*SEARCH\r?\n(.*?)===+[^\r\n]*\r?\n(.*?)>>>+\s*REPLACE`:
match `<<<+\s*SEARCH\r?\n` at the head of `x`, returning the remainder. -/
def matchOpen (x : Str) : Option Str :=
  if (x.takeWhile (fun c => c = '<')).length < 3 then none
  else
    let x1 := (x.dropWhile (fun c => c = '<')).dropWhile isWsChar
    if (str "SEARCH").isPrefixOf x1 then
      match x1.drop 6 with
      | '\r' :: '\n' :: r => some r
      | '\n' :: r => some r
      | _ => none
    else none

/-- Lazy scan for the separator `===+[^\r\n]*\r?\n`: returns the first capture
(the search span) and the remainder after the separator line. -/
def findSep : Nat → Str → Str → Option (Str × Str)
  | 0, _, _ => none
  | fuel + 1, x, acc =>
    if (x.takeWhile (fun c => c = '=')).length ≥ 3 then
      let afterLine := (x.dropWhile (fun c => c = '=')).dropWhile
        (fun c => c ≠ '\r' && c ≠ '\n')
      match afterLine with
      | '\r' :: '\n' :: r => some (acc.reverse, r)
      | '\n' :: r => some (acc.reverse, r)
      | _ =>
        match x with
        | [] => none
        | c :: rest => findSep fuel rest (c :: acc)
    else
      match x with
      | [] => none
      | c :: rest => findSep fuel rest (c :: acc)

/-- Lazy scan for the closer `>>>+\s*REPLACE`: returns the second capture (the
replace span) and the remainder after `REPLACE`. -/
def findClose : Nat → Str → Str → Option (Str × Str)
  | 0, _, _ => none
  | fuel + 1, x, acc =>
    if (x.takeWhile (fun c => c = '>')).length ≥ 3 then
      let after := (x.dropWhile (fun c => c = '>')).dropWhile isWsChar
      if (str "REPLACE").isPrefixOf after then some (acc.reverse, after.drop 7)
      else
        match x with
        | [] => none
        | c :: rest => findClose fuel rest (c :: acc)
    else
      match x with
      | [] => none
      | c :: rest => findClose fuel rest (c :: acc)

/-- One attempted match of the pair regex at the head of `x`. -/
def tryMatchPair (x : Str) : Option ((Str × Str) × Str) :=
  (matchOpen x).bind fun afterOpen =>
    (findSep (afterOpen.length + 1) afterOpen []).bind fun s =>
      (findClose (s.2.length + 1) s.2 []).map fun r => ((s.1, r.1), r.2)

/-- `captures_iter` of the pair regex: leftmost non-overlapping matches. -/
def srPairsAux : Nat → Str → List (Str × Str)
  | 0, _ => []
  | fuel + 1, x =>
    match tryMatchPair x with
    | some pr => pr.1 :: srPairsAux fuel pr.2
    | none =>
      match x with
      | [] => []
      | _ :: r => srPairsAux fuel r

def srPairs (x : Str) : List (Str × Str) := srPairsAux (x.length + 1) x

/-- The body of the `for cap in search_replace_re.captures_iter(...)` loop
(search_replace_applier.rs lines 40-75) for one pair, on the running content
and success counter. -/
def srStep (current : Str) (pair : Str × Str) (succ : Nat) : Str × Nat :=
  let search := pair.1
  let repl := pair.2
  if (trimList search).isEmpty then (repl, succ + 1)
  else if containsList current search then (replaceList current search repl, succ + 1)
  else
    let search' := trimEndList search
    let repl' := trimEndList repl
    if containsList current search' then (replaceList current search' repl', succ + 1)
    else (current, succ)

/-- Sequential application of all pairs against the running content. -/
def srLoop : List (Str × Str) → Str → Nat → Str × Nat
  | [], current, succ => (current, succ)
  | p :: ps, current, succ =>
    let r := srStep current p succ
    srLoop ps r.1 r.2

def noReplMsg (path : Str) : Str :=
  str "Failed to find any content to replace in file " ++ path

/-- `SearchReplaceApplier::apply` after pair extraction: read the file (absent
file = empty), normalize CRLF, run the pairs, then fail / delete / write
(search_replace_applier.rs lines 34-102). -/
def SearchReplaceApplier.applyPairs (w : World) (path : Str) (pairs : List (Str × Str)) :
    Except ClipboardError Unit × World :=
  let original := (w.fs path).getD []
  let current0 := normalizeCRLF original
  let r := srLoop pairs current0 0
  if r.2 = 0 then
    (Except.error (ClipboardError.contentApplicationError (noReplMsg path)), w)
  else if (trimList r.1).isEmpty then
    match w.fs path with
    | none => (Except.error (ClipboardError.ioError (str "No such file or directory")), w)
    | some _ => (Except.ok (), fsRemoveOk w path)
  else
    (Except.ok (), fsWrite w path r.1)

/-- `SearchReplaceApplier::apply`: normalize the block content, extract the
SEARCH/REPLACE pairs with the regex, and process them. -/
def SearchReplaceApplier.apply (w : World) (basePath : Str) (block : ParsedBlock) :
    Except ClipboardError Unit × World :=
  SearchReplaceApplier.applyPairs w (joinPath basePath block.filename)
    (srPairs (normalizeCRLF block.content))

/-! ## Diff appliers -/

/-- Outcome of `diffy::Patch::from_str` followed by `diffy::apply` on the given
current content; the external crate is abstracted by this oracle. -/
inductive DiffOutcome where
  | ok (newContent : Str)
  | parseErr (msg : Str)
  | applyErr (msg : Str)
deriving DecidableEq, Repr

abbrev Diffy := Str → Str → DiffOutcome

/-- `log_diff_error` (src/src/content_extractor/logger.rs lines 19-65): write
one timestamped diagnostic artifact carrying the four fields. -/
def log_diff_error (w : World) (path current diff msg : Str) : World :=
  { w with diags := w.diags ++ [⟨path, msg, some current, some diff⟩] }

/-- `diff_handler::apply_diff` (src/src/content_extractor/diff_handler.rs):
on either parse or apply failure, write one diagnostic record and return the
error; on success return the patched content. -/
def diffHandlerApply (diffy : Diffy) (w : World) (path current diff : Str) :
    Except DiffApplicationError Str × World :=
  match diffy current diff with
  | DiffOutcome.ok newContent => (Except.ok newContent, w)
  | DiffOutcome.applyErr e =>
    (Except.error (DiffApplicationError.diffApplyError e), log_diff_error w path current diff e)
  | DiffOutcome.parseErr e =>
    (Except.error (DiffApplicationError.diffParseError e), log_diff_error w path current diff e)

/-- `ContentApplier::apply_diff` (snippy-content-extractor/src/applier.rs lines
65-95): read current content, run the handler, propagate its error unchanged
(mapped to `WriteError`), and only on success write the new content. -/
def ContentApplier.applyDiff (diffy : Diffy) (w : World) (basePath : Str)
    (block : ParsedBlock) : Except FileOperationError Unit × World :=
  let path := joinPath basePath block.filename
  let current := (w.fs path).getD []
  match diffHandlerApply diffy w path current block.content with
  | (Except.error (DiffApplicationError.diffApplyError m), w1) =>
    (Except.error (FileOperationError.writeError path m), w1)
  | (Except.error (DiffApplicationError.diffParseError m), w1) =>
    (Except.error (FileOperationError.writeError path m), w1)
  | (Except.error (DiffApplicationError.fileOpError e), w1) => (Except.error e, w1)
  | (Except.ok newContent, w1) => (Except.ok (), fsWrite w1 path newContent)

/-- `apply_diff` of src/src/applier/diff_applier.rs (lines 38-60): same diffy
dispatch but with no diagnostic logging at all. -/
def DiffApplier.applyDiffFn (diffy : Diffy) (current diff : Str) :
    Except ClipboardError Str :=
  match diffy current diff with
  | DiffOutcome.ok newContent => Except.ok newContent
  | DiffOutcome.applyErr e => Except.error (ClipboardError.diffError e)
  | DiffOutcome.parseErr e => Except.error (ClipboardError.diffError e)

/-- `DiffApplier::apply` (src/src/applier/diff_applier.rs lines 24-35): read,
patch, and write on success; on failure the error propagates with no write and
no diagnostic. -/
def DiffApplier.apply (diffy : Diffy) (w : World) (basePath : Str)
    (block : ParsedBlock) : Except ClipboardError Unit × World :=
  let path := joinPath basePath block.filename
  let current := (w.fs path).getD []
  match DiffApplier.applyDiffFn diffy current block.content with
  | Except.error e => (Except.error e, w)
  | Except.ok newContent => (Except.ok (), fsWrite w path newContent)

/-! ## Full-content appliers -/

/-- `ContentApplier::apply_full_content` (snippy-content-extractor applier.rs
lines 36-63): read old content (absent = empty), write only when it differs
from the block content. -/
def ContentApplier.applyFullContent (w : World) (basePath : Str)
    (block : ParsedBlock) : Except FileOperationError Unit × World :=
  let path := joinPath basePath block.filename
  let old := (w.fs path).getD []
  if old = block.content then (Except.ok (), w)
  else (Except.ok (), fsWrite w path block.content)

/-- `FullContentApplier::apply` (src/src/applier/full_content_applier.rs lines
25-38): read the original only for the observability diff, then write the block
content unconditionally. -/
def FullContentApplier.apply (w : World) (basePath : Str)
    (block : ParsedBlock) : Except ClipboardError Unit × World :=
  let path := joinPath basePath block.filename
  (Except.ok (), fsWrite w path block.content)

/-! ## Helper lemmas -/

theorem mem_insertByStart (a d : DelimitedBlock) (l : List DelimitedBlock) :
    a ∈ insertByStart d l ↔ a = d ∨ a ∈ l := by
  induction l with
  | nil => simp [insertByStart]
  | cons e es ih =>
    simp only [insertByStart]
    by_cases h : d.start_index ≤ e.start_index
    · simp [h]
    · simp only [h, if_false, List.mem_cons, ih]
      tauto

theorem mem_sortByStart (a : DelimitedBlock) (l : List DelimitedBlock) :
    a ∈ sortByStart l ↔ a ∈ l := by
  induction l with
  | nil => simp [sortByStart]
  | cons d ds ih => simp [sortByStart, mem_insertByStart, ih]

theorem fenceLang_ne_nil {l lang : Str} (h : fenceLang l = some lang) : lang ≠ [] := by
  unfold fenceLang at h
  split at h
  · simp only [] at h
    split at h
    · rename_i hcond
      injection h with h
      intro hn
      rw [h, hn] at hcond
      simp at hcond
    · cases h
  · cases h

/-- Appending a fence-open marker at the end of the delimiter list (an unclosed
fence) changes nothing: it is pushed, left on the stack, and discarded. -/
theorem processLoop_append_open (content : Str) (u : DelimitedBlock)
    (hu : u.is_start = true) :
    ∀ (l stack : List DelimitedBlock) (acc : List ParsedBlock),
      processLoop content (l ++ [u]) stack acc = processLoop content l stack acc := by
  intro l
  induction l with
  | nil =>
    intro stack acc
    simp [processLoop, hu]
  | cons d rest ih =>
    intro stack acc
    simp only [List.cons_append, processLoop, List.append_eq]
    by_cases hd : d.is_start
    · simp only [hd, if_true, ih]
    · simp only [hd, if_false, Bool.false_eq_true]
      cases stack with
      | nil => exact ih [] acc
      | cons top stack' =>
        by_cases hs : stack'.isEmpty
        · simp only [hs, if_true]
          cases top.filename <;> simp [ih]
        · simp only [hs, if_false, Bool.false_eq_true, ih]

/-- Depth profile of a marker sequence: `balancedAux l d = true` iff walking
`l` from nesting depth `d` never pops below depth 0 and ends at depth 0. -/
def balancedAux : List DelimitedBlock → Nat → Bool
  | [], d => d = 0
  | x :: xs, d =>
    if x.is_start then balancedAux xs (d + 1)
    else decide (0 < d) && balancedAux xs (d - 1)

/-- A balanced marker sequence processed above a non-empty protected stack
emits no block and restores the stack. -/
theorem processLoop_balanced_skip (content : Str) :
    ∀ (inner u s : List DelimitedBlock), balancedAux inner u.length = true → s ≠ [] →
      ∀ (rest : List DelimitedBlock) (acc : List ParsedBlock),
        processLoop content (inner ++ rest) (u ++ s) acc = processLoop content rest s acc := by
  intro inner
  induction inner with
  | nil =>
    intro u s hb hs rest acc
    simp only [balancedAux, decide_eq_true_eq, List.length_eq_zero] at hb
    simp [hb]
  | cons x xs ih =>
    intro u s hb hs rest acc
    simp only [balancedAux] at hb
    simp only [List.cons_append, processLoop, List.append_eq]
    by_cases hx : x.is_start
    · simp only [hx, if_true] at hb ⊢
      have := ih (x :: u) s (by simpa using hb) hs rest acc
      simpa using this
    · simp only [hx, if_false, Bool.false_eq_true] at hb ⊢
      rcases (Bool.and_eq_true _ _).mp hb with ⟨hpos, hb'⟩
      have hlen : 0 < u.length := by simpa using hpos
      cases u with
      | nil => simp at hlen
      | cons y u' =>
        simp only [List.cons_append]
        have hne : ((u' ++ s).isEmpty) = false := by
          have : u' ++ s ≠ [] := by
            intro hcontra
            rcases List.append_eq_nil.mp hcontra with ⟨_, h2⟩
            exact hs h2
          simpa [List.isEmpty_iff] using this
        simp only [hne, if_false, Bool.false_eq_true]
        exact ih u' s (by simpa using hb') hs rest acc

/-- Origin of every emitted block: it is built from a fence-open marker with a
resolved filename (taken from the list or the initial stack) and a fence-close
marker of the list, and its content is the text between them. -/
theorem processLoop_origin (content : Str) :
    ∀ (l stack : List DelimitedBlock) (acc : List ParsedBlock) (b : ParsedBlock),
      (∀ d ∈ stack, d.is_start = true) →
      b ∈ processLoop content l stack acc →
      b ∈ acc ∨ ∃ dO dC, (dO ∈ l ∨ dO ∈ stack) ∧ dC ∈ l ∧ dO.is_start = true ∧
        dC.is_start = false ∧ dO.filename = some b.filename ∧
        b.block_type = dO.block_type ∧
        b.content = sliceStr content dO.content_start dC.start_index := by
  intro l
  induction l with
  | nil =>
    intro stack acc b _ hb
    simp only [processLoop] at hb
    exact Or.inl hb
  | cons d rest ih =>
    intro stack acc b hst hb
    simp only [processLoop] at hb
    by_cases hd : d.is_start
    · simp only [hd, if_true] at hb
      have hst' : ∀ e ∈ d :: stack, e.is_start = true := by
        intro e he
        rcases List.mem_cons.mp he with he | he
        · rw [he]; exact hd
        · exact hst e he
      rcases ih (d :: stack) acc b hst' hb with h | ⟨dO, dC, hO, hC, rest'⟩
      · exact Or.inl h
      · refine Or.inr ⟨dO, dC, ?_, List.mem_cons_of_mem _ hC, rest'⟩
        rcases hO with hO | hO
        · exact Or.inl (List.mem_cons_of_mem _ hO)
        · rcases List.mem_cons.mp hO with hO | hO
          · exact Or.inl (by rw [hO]; exact List.mem_cons_self _ _)
          · exact Or.inr hO
    · simp only [hd, if_false, Bool.false_eq_true] at hb
      cases stack with
      | nil =>
        rcases ih [] acc b (by intro e he; cases he) hb with h | ⟨dO, dC, hO, hC, rest'⟩
        · exact Or.inl h
        · refine Or.inr ⟨dO, dC, ?_, List.mem_cons_of_mem _ hC, rest'⟩
          rcases hO with hO | hO
          · exact Or.inl (List.mem_cons_of_mem _ hO)
          · cases hO
      | cons top stack' =>
        have hst' : ∀ e ∈ stack', e.is_start = true := fun e he =>
          hst e (List.mem_cons_of_mem _ he)
        have lift : ∀ (acc' : List ParsedBlock),
            b ∈ processLoop content rest stack' acc' →
            b ∈ acc' ∨ ∃ dO dC, (dO ∈ d :: rest ∨ dO ∈ top :: stack') ∧ dC ∈ d :: rest ∧
              dO.is_start = true ∧ dC.is_start = false ∧
              dO.filename = some b.filename ∧ b.block_type = dO.block_type ∧
              b.content = sliceStr content dO.content_start dC.start_index := by
          intro acc' hmem
          rcases ih stack' acc' b hst' hmem with h | ⟨dO, dC, hO, hC, rest'⟩
          · exact Or.inl h
          · refine Or.inr ⟨dO, dC, ?_, List.mem_cons_of_mem _ hC, rest'⟩
            rcases hO with hO | hO
            · exact Or.inl (List.mem_cons_of_mem _ hO)
            · exact Or.inr (List.mem_cons_of_mem _ hO)
        by_cases hs : stack'.isEmpty
        · simp only [hs, if_true] at hb
          rcases hf : top.filename with _ | fname
          · rw [hf] at hb
            exact lift acc hb
          · rw [hf] at hb
            rcases lift _ hb with h | h
            · rcases List.mem_append.mp h with h | h
              · exact Or.inl h
              · rcases List.mem_singleton.mp h with rfl
                refine Or.inr ⟨top, d, Or.inr (List.mem_cons_self _ _),
                  List.mem_cons_self _ _, hst top (List.mem_cons_self _ _),
                  by simpa using hd, by rw [hf], rfl, rfl⟩
            · exact Or.inr h
        · simp only [hs, if_false, Bool.false_eq_true] at hb
          exact lift acc hb

/-- Every fence-open marker produced by the open-fence scan comes from a line
whose trimmed content is a tagged fence, via `mkStartDelim`. -/
theorem buildStarts_mem (content : Str) (lines headings : List (Nat × Str)) :
    ∀ (ls : List (Nat × Str)) (prevStart : Nat) (d : DelimitedBlock),
      d ∈ buildStarts content lines headings ls prevStart →
      ∃ pl lang prev, pl ∈ ls ∧ fenceLang pl.2 = some lang ∧
        d = mkStartDelim content lines headings prev pl.1 pl.2 lang := by
  intro ls
  induction ls with
  | nil => intro prevStart d hd; cases hd
  | cons pl rest ih =>
    intro prevStart d hd
    rcases pl with ⟨p, l⟩
    simp only [buildStarts] at hd
    rcases hf : fenceLang l with _ | lang <;> rw [hf] at hd
    · rcases ih prevStart d hd with ⟨pl', lang', prev', hmem, hl, he⟩
      exact ⟨pl', lang', prev', List.mem_cons_of_mem _ hmem, hl, he⟩
    · rcases List.mem_cons.mp hd with hd | hd
      · exact ⟨(p, l), lang, prevStart, List.mem_cons_self _ _, hf, hd⟩
      · rcases ih p d hd with ⟨pl', lang', prev', hmem, hl, he⟩
        exact ⟨pl', lang', prev', List.mem_cons_of_mem _ hmem, hl, he⟩

theorem endDelims_is_start_false (lines : List (Nat × Str)) (d : DelimitedBlock)
    (hd : d ∈ endDelims lines) : d.is_start = false := by
  unfold endDelims at hd
  rcases List.mem_filterMap.mp hd with ⟨pl, _, hpl⟩
  split at hpl
  · cases Option.some.inj hpl
    rfl
  · cases hpl

theorem mkStartDelim_block_type (content : Str) (lines headings : List (Nat × Str))
    (prev p : Nat) (l lang : Str) :
    (mkStartDelim content lines headings prev p l lang).block_type = tagToType lang := rfl

theorem mkStartDelim_is_start (content : Str) (lines headings : List (Nat × Str))
    (prev p : Nat) (l lang : Str) (h : lang ≠ []) :
    (mkStartDelim content lines headings prev p l lang).is_start = true := by
  have : (mkStartDelim content lines headings prev p l lang).is_start = !lang.isEmpty := rfl
  rw [this]
  cases lang with
  | nil => exact absurd rfl h
  | cons c cs => rfl

theorem mkStartDelim_filename (content : Str) (lines headings : List (Nat × Str))
    (prev p : Nat) (l lang : Str) :
    (mkStartDelim content lines headings prev p l lang).filename =
      (((fnameAt content lines (match findNewlineFrom content (p + l.length) with
          | some k => k + 1
          | none => p + l.length)).orElse fun _ =>
        ((headings.reverse.find? fun h =>
            decide (h.1 < p) && decide (prev ≤ h.1)).map (fun h => h.2))).map stripAB) := rfl

/-- Membership in the sorted delimiter list of `identify_delimiters`. -/
theorem identifyDelimiters_mem (content : Str) (ds : List DelimitedBlock)
    (h : identifyDelimiters content = Except.ok ds) (d : DelimitedBlock) (hd : d ∈ ds) :
    d ∈ buildStarts content (linesOf content) (headingsOf (linesOf content))
        (linesOf content) 0 ∨ d ∈ endDelims (linesOf content) := by
  unfold identifyDelimiters at h
  simp only [] at h
  split at h
  · cases h
  · cases Except.ok.inj h
    have := (mem_sortByStart d _).mp hd
    exact List.mem_append.mp this

theorem isPrefixOf_append_self (s t : Str) : s.isPrefixOf (s ++ t) = true :=
  List.isPrefixOf_iff_prefix.mpr ⟨t, rfl⟩

/-- A string occurs in any text of which it is a middle factor. -/
theorem containsList_append_mid (a s b : Str) : containsList (a ++ (s ++ b)) s = true := by
  induction a with
  | nil =>
    unfold containsList
    simp [isPrefixOf_append_self]
  | cons c cs ih =>
    unfold containsList
    split
    · rfl
    · simpa using ih

/-- A sub-slice occurs inside any enclosing slice of the same text. -/
theorem containsList_sliceStr_of_le (l : Str) (a p q b : Nat)
    (hap : a ≤ p) (hpq : p ≤ q) (hqb : q ≤ b) :
    containsList (sliceStr l a b) (sliceStr l p q) = true := by
  have hdecomp : sliceStr l a b =
      (l.drop a).take (p - a) ++ (sliceStr l p q ++ (l.drop q).take (b - q)) := by
    unfold sliceStr
    have h1 : b - a = (p - a) + ((q - p) + (b - q)) := by omega
    rw [h1, List.take_add, List.take_add]
    have h2 : (l.drop a).drop (p - a) = l.drop p := by
      rw [List.drop_drop]
      congr 1
      omega
    have h3 : (l.drop p).drop (q - p) = l.drop q := by
      rw [List.drop_drop]
      congr 1
      omega
    rw [h2, h3]
  rw [hdecomp]
  exact containsList_append_mid _ _ _

/-- Every character of the result of `str::replace` comes from the scanned text
or from the replacement. -/
theorem mem_replaceListAux (c : Char) (search repl : Str) :
    ∀ (fuel : Nat) (x : Str), c ∈ replaceListAux fuel search repl x → c ∈ x ∨ c ∈ repl := by
  intro fuel
  induction fuel with
  | zero =>
    intro x hc
    cases x with
    | nil => cases hc
    | cons d ds => exact Or.inl hc
  | succ fuel ih =>
    intro x hc
    cases x with
    | nil => cases hc
    | cons d ds =>
      simp only [replaceListAux] at hc
      split at hc
      · rcases List.mem_append.mp hc with hc | hc
        · exact Or.inr hc
        · rcases ih _ hc with hc | hc
          · exact Or.inl (List.mem_of_mem_drop hc)
          · exact Or.inr hc
      · rcases List.mem_cons.mp hc with hc | hc
        · exact Or.inl (by rw [hc]; exact List.mem_cons_self _ _)
        · rcases ih _ hc with hc | hc
          · exact Or.inl (List.mem_cons_of_mem _ hc)
          · exact Or.inr hc

theorem mem_replaceList (c : Char) (x search repl : Str)
    (hc : c ∈ replaceList x search repl) : c ∈ x ∨ c ∈ repl :=
  mem_replaceListAux c search repl x.length x hc

theorem not_mem_trimEndList (c : Char) (s : Str) (hc : c ∉ s) : c ∉ trimEndList s := by
  intro hmem
  unfold trimEndList at hmem
  rw [List.mem_reverse] at hmem
  exact hc (List.mem_reverse.mp ((List.dropWhile_sublist _).mem hmem))

/-- Characters of a string occurrence are characters of the text. -/
theorem mem_of_containsList (x s : Str) (h : containsList x s = true) (c : Char)
    (hc : c ∈ s) : c ∈ x := by
  induction x with
  | nil =>
    unfold containsList at h
    split at h
    · rename_i hpre
      rcases List.isPrefixOf_iff_prefix.mp hpre with ⟨t, ht⟩
      rw [← ht]
      exact List.mem_append_left _ hc
    · cases h
  | cons d ds ih =>
    unfold containsList at h
    split at h
    · rename_i hpre
      rcases List.isPrefixOf_iff_prefix.mp hpre with ⟨t, ht⟩
      rw [← ht]
      exact List.mem_append_left _ hc
    · exact List.mem_cons_of_mem _ (ih h)

theorem containsList_eq_false_of_not_mem (x s : Str) (c : Char) (hc : c ∈ s)
    (hx : c ∉ x) : containsList x s = false := by
  cases h : containsList x s
  · rfl
  · exact absurd (mem_of_containsList x s h c hc) hx

/-- Replacing a single-character search leaves no occurrence of that character
when the replacement avoids it: every occurrence is rewritten, not only the
first. -/
theorem not_mem_replaceList_single (ch : Char) (repl : Str) (hr : ch ∉ repl) :
    ∀ (fuel : Nat) (x : Str), x.length ≤ fuel → ch ∉ replaceListAux fuel [ch] repl x := by
  intro fuel
  induction fuel with
  | zero =>
    intro x hx
    interval_cases hlen : x.length
    · rw [List.length_eq_zero.mp hlen]
      intro hc
      cases hc
  | succ fuel ih =>
    intro x hx
    cases x with
    | nil => intro hc; cases hc
    | cons d ds =>
      simp only [replaceListAux]
      split
      · rename_i hpre
        intro hc
        rcases List.mem_append.mp hc with hc | hc
        · exact hr hc
        · have hds : List.drop [ch].length (d :: ds) = ds := by simp
          rw [hds] at hc
          have hlen : ds.length ≤ fuel := by
            have := hx
            simp only [List.length_cons] at this
            omega
          exact ih _ hlen hc
      · rename_i hpre
        have hd : d ≠ ch := by
          intro hdc
          apply hpre
          simp [List.isPrefixOf, hdc]
        intro hc
        rcases List.mem_cons.mp hc with hc | hc
        · exact hd hc.symm
        · exact ih ds (by simpa using Nat.le_of_succ_le_succ (by simpa using hx)) hc

theorem srStep_not_mem (ch : Char) (current : Str) (pair : Str × Str) (succ : Nat)
    (hcur : ch ∉ current) (h2 : ch ∉ pair.2) :
    ch ∉ (srStep current pair succ).1 := by
  unfold srStep
  simp only []
  split
  · exact h2
  · split
    · intro hc
      rcases mem_replaceList ch current pair.1 pair.2 hc with hc | hc
      · exact hcur hc
      · exact h2 hc
    · split
      · intro hc
        rcases mem_replaceList ch current (trimEndList pair.1) (trimEndList pair.2) hc with hc | hc
        · exact hcur hc
        · exact not_mem_trimEndList ch pair.2 h2 hc
      · exact hcur

theorem srLoop_not_mem (ch : Char) :
    ∀ (pairs : List (Str × Str)) (current : Str) (succ : Nat),
      (∀ p ∈ pairs, ch ∉ p.2) → ch ∉ current → ch ∉ (srLoop pairs current succ).1 := by
  intro pairs
  induction pairs with
  | nil => intro current succ _ hcur; exact hcur
  | cons p ps ih =>
    intro current succ hp hcur
    simp only [srLoop]
    exact ih _ _ (fun q hq => hp q (List.mem_cons_of_mem _ hq))
      (srStep_not_mem ch current p succ hcur (hp p (List.mem_cons_self _ _)))

/-! ## Concrete demonstration inputs -/

/-- A labeled outer fence (filename from the heading) whose body contains a
complete nested fence. -/
def demoNestedText : Str := str "# a.py\n```python\nx=1\n```md\ndoc\n```\n```\n"

/-- A complete labeled fence followed by an unclosed fence-open. -/
def demoUnclosedText : Str := str "# a.py\n```python\nx=1\n```\n# b.py\n```python\ny=2\n"

/-- Text with no fence lines at all. -/
def demoPlainText : Str := str "hello\nworld\n"

/-- A fence whose filename directive captures exactly `a/`: the git-diff
prefix strip then empties the resolved filename. -/
def demoEmptyDirectiveText : Str := str "```python\n// filename: a/\nx=1\n```\n"

/-- The four markers `identify_delimiters` yields for `demoNestedText`. -/
def demoOuterOpen : DelimitedBlock := ⟨7, 17, true, some (str "a.py"), BlockType.FullContent⟩

def demoInnerOpen : DelimitedBlock := ⟨21, 27, true, none, BlockType.FullContent⟩

def demoInnerClose : DelimitedBlock := ⟨31, 34, false, none, BlockType.FullContent⟩

def demoOuterClose : DelimitedBlock := ⟨35, 38, false, none, BlockType.FullContent⟩

/-! ## Claim C9 -/

/-- C9: for every input text in which the delimiter scan yields zero markers
(no fence-open and no fence-close line), `extract_blocks` fails with the
`NoDelimitersFound` format error; and whenever `identify_delimiters` succeeds,
the marker list it returns is non-empty (so `extract` never merely returns an
empty block list for a markerless text). -/
theorem extract_no_fences_fails (content : Str)
    (h : ∀ pl ∈ linesOf content, fenceLang pl.2 = none ∧ isEndFenceLine pl.2 = false) :
    extractBlocks content =
      Except.error (ContentFormatErr.formatError (str "No delimiters found")) ∧
    ∀ (c : Str) (ds : List DelimitedBlock), identifyDelimiters c = Except.ok ds → ds ≠ [] := by
  constructor
  · have hstarts : ∀ (ls : List (Nat × Str)), (∀ pl ∈ ls, fenceLang pl.2 = none) →
        ∀ prev, buildStarts content (linesOf content) (headingsOf (linesOf content)) ls prev = [] := by
      intro ls
      induction ls with
      | nil => intro _ _; rfl
      | cons pl rest ih =>
        intro hls prev
        rcases pl with ⟨p, l⟩
        have hnone : fenceLang l = none := hls (p, l) (List.mem_cons_self _ _)
        simp only [buildStarts, hnone]
        exact ih (fun q hq => hls q (List.mem_cons_of_mem _ hq)) prev
    have hends : endDelims (linesOf content) = [] := by
      unfold endDelims
      rw [List.filterMap_eq_nil_iff]
      intro pl hpl
      simp [(h pl hpl).2]
    unfold extractBlocks identifyDelimiters
    simp only [hstarts (linesOf content) (fun pl hpl => (h pl hpl).1) 0, hends]
    rfl
  · intro c ds hds
    unfold identifyDelimiters at hds
    simp only [] at hds
    split at hds
    · cases hds
    · rename_i hne
      cases Except.ok.inj hds
      intro hnil
      rw [hnil] at hne
      exact hne rfl

/-- Witness for C9 at a concrete markerless text. -/
theorem extract_no_fences_fails_witness :
    extractBlocks demoPlainText =
      Except.error (ContentFormatErr.formatError (str "No delimiters found")) :=
  (extract_no_fences_fails demoPlainText (by decide)).1

/-! ## Claim C7 -/

/-- C7: the fence language tag determines the block kind: `diff` maps to
`UnifiedDiff`, `replace` to `SearchReplaceBlock`, and any other tag to
`FullContent` (an untagged fence only matches the fence-close regex and never
becomes a fence-open); and every block emitted by extraction carries the kind
computed from the language tag of some fence-open line of the input. -/
theorem fence_tag_determines_kind :
    (tagToType (str "diff") = BlockType.UnifiedDiff ∧
     tagToType (str "replace") = BlockType.SearchReplaceBlock ∧
     ∀ lang, lang ≠ str "diff" → lang ≠ str "replace" →
       tagToType lang = BlockType.FullContent) ∧
    ∀ (content : Str) (blocks : List ParsedBlock) (b : ParsedBlock),
      extractBlocks content = Except.ok blocks → b ∈ blocks →
      ∃ pl lang, pl ∈ linesOf content ∧ fenceLang pl.2 = some lang ∧
        b.block_type = tagToType lang := by
  constructor
  · refine ⟨rfl, rfl, ?_⟩
    intro lang h1 h2
    unfold tagToType
    rw [if_neg h1, if_neg h2]
  · intro content blocks b hok hb
    unfold extractBlocks at hok
    rcases hid : identifyDelimiters content with e | ds <;> rw [hid] at hok
    · cases hok
    · cases Except.ok.inj hok
      rcases processLoop_origin content ds [] [] b (by intro d hd; cases hd) hb with
        hacc | ⟨dO, dC, hO, _, hstart, _, _, htype, _⟩
      · cases hacc
      · have hOds : dO ∈ ds := by
          rcases hO with hO | hO
          · exact hO
          · cases hO
        rcases identifyDelimiters_mem content ds hid dO hOds with hmem | hmem
        · rcases buildStarts_mem content (linesOf content) (headingsOf (linesOf content))
            (linesOf content) 0 dO hmem with ⟨pl, lang, prev, hpl, hlang, heq⟩
          refine ⟨pl, lang, hpl, hlang, ?_⟩
          rw [htype, heq]
          exact mkStartDelim_block_type content (linesOf content)
            (headingsOf (linesOf content)) prev pl.1 pl.2 lang
        · rw [endDelims_is_start_false (linesOf content) dO hmem] at hstart
          cases hstart

/-- Witness for C7: the `python`-tagged fence of the nested demo text yields a
`FullContent` block whose kind matches its tag. -/
theorem fence_tag_determines_kind_witness :
    ∃ pl lang, pl ∈ linesOf demoNestedText ∧ fenceLang pl.2 = some lang ∧
      (ParsedBlock.mk (str "a.py") (str "x=1\n```md\ndoc\n```\n")
        BlockType.FullContent).block_type = tagToType lang :=
  fence_tag_determines_kind.2 demoNestedText
    [⟨str "a.py", str "x=1\n```md\ndoc\n```\n", BlockType.FullContent⟩]
    ⟨str "a.py", str "x=1\n```md\ndoc\n```\n", BlockType.FullContent⟩
    rfl (List.mem_singleton.mpr rfl)

/-! ## Claim C8 -/

/-- C8 (amended): every block produced by extraction has a filename that was
actually resolved (a fence with no resolved filename never yields a block),
and that filename is the resolved raw capture — an inline-directive or
diff-source-line capture, or a preceding heading token — with one leading `a/`
or `b/` prefix stripped.  Non-emptiness is not guaranteed: a resolved capture
of exactly `a/` or `b/` is stripped to the empty filename. -/
theorem block_filename_resolution (content : Str) (blocks : List ParsedBlock)
    (b : ParsedBlock) (hok : extractBlocks content = Except.ok blocks) (hb : b ∈ blocks) :
    ∃ raw, b.filename = stripAB raw ∧
      ((∃ i, fnameAt content (linesOf content) i = some raw) ∨
       (∃ h, h ∈ headingsOf (linesOf content) ∧ h.2 = raw)) := by
  unfold extractBlocks at hok
  rcases hid : identifyDelimiters content with e | ds <;> rw [hid] at hok
  · cases hok
  · cases Except.ok.inj hok
    rcases processLoop_origin content ds [] [] b (by intro d hd; cases hd) hb with
      hacc | ⟨dO, dC, hO, _, hstart, _, hfile, _, _⟩
    · cases hacc
    · have hOds : dO ∈ ds := by
        rcases hO with hO | hO
        · exact hO
        · cases hO
      rcases identifyDelimiters_mem content ds hid dO hOds with hmem | hmem
      · rcases buildStarts_mem content (linesOf content) (headingsOf (linesOf content))
          (linesOf content) 0 dO hmem with ⟨pl, lang, prev, _, _, heq⟩
        have hfn := mkStartDelim_filename content (linesOf content)
          (headingsOf (linesOf content)) prev pl.1 pl.2 lang
        rw [← heq, hfile] at hfn
        rcases Option.map_eq_some'.mp hfn.symm with ⟨raw, hraw, hstrip⟩
        refine ⟨raw, hstrip.symm, ?_⟩
        rcases hfa : fnameAt content (linesOf content)
            (match findNewlineFrom content (pl.1 + pl.2.length) with
              | some k => k + 1
              | none => pl.1 + pl.2.length) with _ | v
        · rw [hfa] at hraw
          simp only [Option.orElse, Option.none_orElse] at hraw
          rcases Option.map_eq_some'.mp hraw with ⟨hd, hfind, hh⟩
          refine Or.inr ⟨hd, ?_, hh⟩
          have := List.mem_of_find?_eq_some hfind
          exact List.mem_reverse.mp this
        · rw [hfa] at hraw
          simp only [Option.orElse, Option.some_orElse] at hraw
          cases hraw
          exact Or.inl ⟨_, hfa⟩
      · rw [endDelims_is_start_false (linesOf content) dO hmem] at hstart
        cases hstart

/-- Witness for C8 (amended) at the nested demo text: the emitted block's
filename is a resolved heading token with the prefix strip applied. -/
theorem block_filename_resolution_witness :
    ∃ raw, (str "a.py") = stripAB raw ∧
      ((∃ i, fnameAt demoNestedText (linesOf demoNestedText) i = some raw) ∨
       (∃ h, h ∈ headingsOf (linesOf demoNestedText) ∧ h.2 = raw)) :=
  block_filename_resolution demoNestedText
    [⟨str "a.py", str "x=1\n```md\ndoc\n```\n", BlockType.FullContent⟩]
    ⟨str "a.py", str "x=1\n```md\ndoc\n```\n", BlockType.FullContent⟩
    rfl (List.mem_singleton.mpr rfl)

/-- Counterexample for C8 as stated: the directive line `// filename: a/`
captures exactly `a/`, and the git-diff prefix strip of
delimiter_identifier.rs lines 133-139 removes those two characters, so
extraction emits a `ParsedBlock` whose `filename` is the empty string — the
claimed non-emptiness invariant fails. -/
theorem extract_empty_filename_counterexample :
    extractBlocks demoEmptyDirectiveText =
      Except.ok [⟨[], str "x=1\n", BlockType.FullContent⟩] ∧
    stripAB (str "a/") = [] ∧ ([] : Str).isEmpty = true := ⟨rfl, rfl, rfl⟩

/-! ## Claim C3 -/

/-- C3: a labeled top-level fence whose body contains a complete (balanced)
nested fence span yields exactly one block — the outer one — whose content is
the full text between the outer markers; any sub-span of that region (in
particular the nested fence text) occurs verbatim inside it; and on the
concrete nested demo text, extraction returns exactly the outer block with the
inner fence text preserved verbatim. -/
theorem nested_fence_single_block (content : Str) (o c : DelimitedBlock)
    (inner : List DelimitedBlock) (f : Str)
    (ho : o.is_start = true) (hf : o.filename = some f)
    (hbal : balancedAux inner 0 = true) (hc : c.is_start = false) :
    processDelims content (o :: (inner ++ [c])) =
      [⟨f, sliceStr content o.content_start c.start_index, o.block_type⟩] ∧
    (∀ p q, o.content_start ≤ p → p ≤ q → q ≤ c.start_index →
      containsList (sliceStr content o.content_start c.start_index)
        (sliceStr content p q) = true) ∧
    extractBlocks demoNestedText =
      Except.ok [⟨str "a.py", str "x=1\n```md\ndoc\n```\n", BlockType.FullContent⟩] ∧
    containsList (str "x=1\n```md\ndoc\n```\n") (str "```md\ndoc\n```") = true := by
  refine ⟨?_, ?_, rfl, rfl⟩
  · unfold processDelims
    simp only [processLoop, ho, if_true]
    have hskip := processLoop_balanced_skip content inner [] [o] hbal
      (by intro h; cases h) [c] []
    simp only [List.nil_append] at hskip
    rw [hskip]
    simp [processLoop, hc, hf]
  · intro p q hcp hpq hqc
    exact containsList_sliceStr_of_le content o.content_start p q c.start_index hcp hpq hqc

/-- Witness for C3 at the markers of the nested demo text. -/
theorem nested_fence_single_block_witness :
    processDelims demoNestedText
      (demoOuterOpen :: ([demoInnerOpen, demoInnerClose] ++ [demoOuterClose])) =
      [⟨str "a.py", sliceStr demoNestedText 17 35, BlockType.FullContent⟩] ∧
    containsList (sliceStr demoNestedText 17 35) (sliceStr demoNestedText 21 34) = true := by
  have h := nested_fence_single_block demoNestedText demoOuterOpen demoOuterClose
    [demoInnerOpen, demoInnerClose] (str "a.py") (by decide) (by decide) (by decide) (by decide)
  exact ⟨h.1, h.2.1 21 34 (by decide) (by decide) (by decide)⟩

/-! ## Claim C5 -/

/-- C5: an unclosed fence-open left on the stack at end of scan produces no
block (no truncated block at all) and does not disturb the blocks of the
well-formed top-level fences processed before it; every emitted block is
delimited by an actual fence-close marker (no block runs off the end of the
text); and on the concrete demo text the complete labeled fence is extracted
while the trailing unclosed fence contributes nothing. -/
theorem unclosed_fence_no_block (content : Str) (ds : List DelimitedBlock)
    (u : DelimitedBlock) (hu : u.is_start = true) :
    processDelims content (ds ++ [u]) = processDelims content ds ∧
    (∀ b ∈ processDelims content ds, ∃ dO dC, dO ∈ ds ∧ dC ∈ ds ∧
      dO.is_start = true ∧ dC.is_start = false ∧ dO.filename = some b.filename ∧
      b.content = sliceStr content dO.content_start dC.start_index) ∧
    extractBlocks demoUnclosedText =
      Except.ok [⟨str "a.py", str "x=1\n", BlockType.FullContent⟩] := by
  refine ⟨processLoop_append_open content u hu ds [] [], ?_, rfl⟩
  intro b hb
  rcases processLoop_origin content ds [] [] b (by intro d hd; cases hd) hb with
    hacc | ⟨dO, dC, hO, hC, hstart, hcstart, hfile, _, hcontent⟩
  · cases hacc
  · have hOds : dO ∈ ds := by
      rcases hO with hO | hO
      · exact hO
      · cases hO
    exact ⟨dO, dC, hOds, hC, hstart, hcstart, hfile, hcontent⟩

/-- Witness for C5 at the markers of the unclosed demo text. -/
theorem unclosed_fence_no_block_witness :
    processDelims demoUnclosedText
      ([⟨7, 17, true, some (str "a.py"), BlockType.FullContent⟩,
        ⟨21, 24, false, none, BlockType.FullContent⟩] ++
       [⟨32, 42, true, some (str "b.py"), BlockType.FullContent⟩]) =
      processDelims demoUnclosedText
        [⟨7, 17, true, some (str "a.py"), BlockType.FullContent⟩,
         ⟨21, 24, false, none, BlockType.FullContent⟩] :=
  (unclosed_fence_no_block demoUnclosedText
    [⟨7, 17, true, some (str "a.py"), BlockType.FullContent⟩,
     ⟨21, 24, false, none, BlockType.FullContent⟩]
    ⟨32, 42, true, some (str "b.py"), BlockType.FullContent⟩ (by decide)).1

/-! ## Claim C1 -/

/-- C1 (amended): through the content-extractor engine
(`ContentApplier::apply_diff` via `diff_handler::apply_diff` and
`log_diff_error`), a diff parse failure or apply failure makes the call return
an error, leaves the whole filesystem (and the write counter) untouched, and
appends exactly one diagnostic record carrying the file path, the error
message, the current content and the diff content.  The watcher-path
`DiffApplier` keeps the error-and-untouched-file guarantee but writes no
diagnostic (see the counterexample). -/
theorem contentApplier_diff_failure_diagnostic (diffy : Diffy) (w : World)
    (basePath : Str) (block : ParsedBlock) (e : Str)
    (h : diffy ((w.fs (joinPath basePath block.filename)).getD []) block.content =
          DiffOutcome.parseErr e ∨
        diffy ((w.fs (joinPath basePath block.filename)).getD []) block.content =
          DiffOutcome.applyErr e) :
    (ContentApplier.applyDiff diffy w basePath block).1 =
      Except.error (FileOperationError.writeError (joinPath basePath block.filename) e) ∧
    (ContentApplier.applyDiff diffy w basePath block).2.fs = w.fs ∧
    (ContentApplier.applyDiff diffy w basePath block).2.writes = w.writes ∧
    (ContentApplier.applyDiff diffy w basePath block).2.diags = w.diags ++
      [⟨joinPath basePath block.filename, e,
        some ((w.fs (joinPath basePath block.filename)).getD []), some block.content⟩] := by
  rcases h with h | h <;>
    simp [ContentApplier.applyDiff, diffHandlerApply, log_diff_error, h]

/-- Witness for C1 (amended) with a concretely failing diff oracle. -/
theorem contentApplier_diff_failure_diagnostic_witness :
    (ContentApplier.applyDiff (fun _ _ => DiffOutcome.parseErr (str "bad hunk"))
        { fs := fun q => if q = str "base/f.txt" then some (str "x") else none,
          diags := [], writes := 0 } (str "base")
        ⟨str "f.txt", str "not a diff", BlockType.UnifiedDiff⟩).2.diags =
      [⟨str "base/f.txt", str "bad hunk", some (str "x"), some (str "not a diff")⟩] := by
  have h := contentApplier_diff_failure_diagnostic
    (fun _ _ => DiffOutcome.parseErr (str "bad hunk"))
    { fs := fun q => if q = str "base/f.txt" then some (str "x") else none,
      diags := [], writes := 0 } (str "base")
    ⟨str "f.txt", str "not a diff", BlockType.UnifiedDiff⟩ (str "bad hunk") (Or.inl rfl)
  rw [h.2.2.2]
  rfl

/-- Counterexample for C1 as stated: the watcher-path `DiffApplier::apply`
(src/src/applier/diff_applier.rs, dispatched by watch.rs for `UnifiedDiff`
blocks) on a failing diff returns an error and leaves the file byte-identical,
but writes zero diagnostic records, not exactly one. -/
theorem diffApplier_failure_no_diagnostic :
    (DiffApplier.apply (fun _ _ => DiffOutcome.parseErr (str "bad hunk"))
        { fs := fun q => if q = str "base/f.txt" then some (str "x") else none,
          diags := [], writes := 0 } (str "base")
        ⟨str "f.txt", str "not a diff", BlockType.UnifiedDiff⟩).1 =
      Except.error (ClipboardError.diffError (str "bad hunk")) ∧
    (DiffApplier.apply (fun _ _ => DiffOutcome.parseErr (str "bad hunk"))
        { fs := fun q => if q = str "base/f.txt" then some (str "x") else none,
          diags := [], writes := 0 } (str "base")
        ⟨str "f.txt", str "not a diff", BlockType.UnifiedDiff⟩).2.fs (str "base/f.txt") =
      some (str "x") ∧
    (DiffApplier.apply (fun _ _ => DiffOutcome.parseErr (str "bad hunk"))
        { fs := fun q => if q = str "base/f.txt" then some (str "x") else none,
          diags := [], writes := 0 } (str "base")
        ⟨str "f.txt", str "not a diff", BlockType.UnifiedDiff⟩).2.diags.length = 0 :=
  ⟨rfl, rfl, rfl⟩

/-! ## Claim C4 -/

/-- C4 (amended): applying a `FullContent` block and then reading the target
file yields exactly the block content (verbatim; an absent file reads as
empty).  Through `ContentApplier::apply_full_content` a second apply with
identical content performs zero writes (at most one write across both calls);
through the watcher-path `FullContentApplier` the file still reads back as the
block content but every call performs a write (see the counterexample). -/
theorem fullContent_roundtrip_idempotent (w : World) (basePath : Str)
    (block : ParsedBlock) :
    (((ContentApplier.applyFullContent w basePath block).2.fs
        (joinPath basePath block.filename)).getD [] = block.content ∧
     ((ContentApplier.applyFullContent
        (ContentApplier.applyFullContent w basePath block).2 basePath block).2.fs
        (joinPath basePath block.filename)).getD [] = block.content ∧
     (ContentApplier.applyFullContent
        (ContentApplier.applyFullContent w basePath block).2 basePath block).2.writes =
       (ContentApplier.applyFullContent w basePath block).2.writes ∧
     (ContentApplier.applyFullContent w basePath block).2.writes ≤ w.writes + 1) ∧
    ((FullContentApplier.apply w basePath block).2.fs
        (joinPath basePath block.filename) = some block.content ∧
     (FullContentApplier.apply w basePath block).2.writes = w.writes + 1) := by
  by_cases hold : (w.fs (joinPath basePath block.filename)).getD [] = block.content
  · constructor
    · simp [ContentApplier.applyFullContent, hold]
    · constructor
      · simp [FullContentApplier.apply, fsWrite]
      · rfl
  · have h1 : (ContentApplier.applyFullContent w basePath block).2 =
        fsWrite w (joinPath basePath block.filename) block.content := by
      simp [ContentApplier.applyFullContent, hold]
    have hread : ((fsWrite w (joinPath basePath block.filename) block.content).fs
        (joinPath basePath block.filename)).getD [] = block.content := by
      simp [fsWrite]
    constructor
    · refine ⟨by rw [h1]; exact hread, ?_, ?_, by rw [h1]; rfl⟩
      · rw [h1]
        simp [ContentApplier.applyFullContent, hread, fsWrite]
      · rw [h1]
        simp [ContentApplier.applyFullContent, hread]
    · constructor
      · simp [FullContentApplier.apply, fsWrite]
      · rfl

/-- Counterexample for C4 as stated: two identical applications through the
watcher-path `FullContentApplier` perform two writes, not exactly one. -/
theorem fullContentApplier_writes_twice :
    ((FullContentApplier.apply
        (FullContentApplier.apply { fs := fun _ => none, diags := [], writes := 0 }
          (str "base") ⟨str "f.txt", str "hello", BlockType.FullContent⟩).2
        (str "base") ⟨str "f.txt", str "hello", BlockType.FullContent⟩).2.writes = 2) ∧
    ((FullContentApplier.apply
        (FullContentApplier.apply { fs := fun _ => none, diags := [], writes := 0 }
          (str "base") ⟨str "f.txt", str "hello", BlockType.FullContent⟩).2
        (str "base") ⟨str "f.txt", str "hello", BlockType.FullContent⟩).2.fs
      (str "base/f.txt") = some (str "hello")) :=
  ⟨rfl, rfl⟩

/-! ## Claim C2 -/

/-- C2: after all SEARCH/REPLACE pairs are processed, zero successful pairs
make the call fail with the no-successful-replacements error
(`ClipboardError::ContentApplicationError` in the code) leaving the state
untouched; otherwise an empty-or-all-whitespace running content deletes the
target file, and any other running content is written to it. -/
theorem searchReplace_final_dispatch (w : World) (path : Str)
    (pairs : List (Str × Str)) :
    ((srLoop pairs (normalizeCRLF ((w.fs path).getD [])) 0).2 = 0 →
      (SearchReplaceApplier.applyPairs w path pairs).1 =
        Except.error (ClipboardError.contentApplicationError (noReplMsg path)) ∧
      (SearchReplaceApplier.applyPairs w path pairs).2 = w) ∧
    ((srLoop pairs (normalizeCRLF ((w.fs path).getD [])) 0).2 ≠ 0 →
      (trimList (srLoop pairs (normalizeCRLF ((w.fs path).getD [])) 0).1).isEmpty = true →
      (w.fs path).isSome = true →
      (SearchReplaceApplier.applyPairs w path pairs).1 = Except.ok () ∧
      (SearchReplaceApplier.applyPairs w path pairs).2.fs path = none) ∧
    ((srLoop pairs (normalizeCRLF ((w.fs path).getD [])) 0).2 ≠ 0 →
      (trimList (srLoop pairs (normalizeCRLF ((w.fs path).getD [])) 0).1).isEmpty = false →
      (SearchReplaceApplier.applyPairs w path pairs).1 = Except.ok () ∧
      (SearchReplaceApplier.applyPairs w path pairs).2.fs path =
        some (srLoop pairs (normalizeCRLF ((w.fs path).getD [])) 0).1) := by
  refine ⟨?_, ?_, ?_⟩
  · intro hz
    simp [SearchReplaceApplier.applyPairs, hz]
  · intro hnz hempty hsome
    rcases hfs : w.fs path with _ | old
    · rw [hfs] at hsome
      cases hsome
    · rw [hfs] at hnz hempty
      simp only [Option.getD_some] at hnz hempty
      have hempty' : trimList (srLoop pairs (normalizeCRLF old) 0).1 = [] :=
        List.isEmpty_iff.mp hempty
      constructor
      · simp [SearchReplaceApplier.applyPairs, hnz, hempty', hfs]
      · simp [SearchReplaceApplier.applyPairs, hnz, hempty', hfs, fsRemoveOk]
  · intro hnz hne
    have hne' : trimList (srLoop pairs (normalizeCRLF ((w.fs path).getD [])) 0).1 ≠ [] := by
      intro hcontra
      rw [List.isEmpty_iff.mpr hcontra] at hne
      cases hne
    constructor
    · simp [SearchReplaceApplier.applyPairs, hnz, hne']
    · simp [SearchReplaceApplier.applyPairs, hnz, hne', fsWrite]

/-- Witness for C2: a block whose only pair matches nothing fails with the
no-successful-replacements error and leaves the state untouched. -/
theorem searchReplace_final_dispatch_witness :
    (SearchReplaceApplier.applyPairs
        { fs := fun q => if q = str "base/f.txt" then some (str "hello") else none,
          diags := [], writes := 0 } (str "base/f.txt") [(str "zzz", str "y")]).1 =
      Except.error (ClipboardError.contentApplicationError (noReplMsg (str "base/f.txt"))) ∧
    (SearchReplaceApplier.applyPairs
        { fs := fun q => if q = str "base/f.txt" then some (str "hello") else none,
          diags := [], writes := 0 } (str "base/f.txt") [(str "zzz", str "y")]).2 =
      { fs := fun q => if q = str "base/f.txt" then some (str "hello") else none,
        diags := [], writes := 0 } :=
  (searchReplace_final_dispatch
    { fs := fun q => if q = str "base/f.txt" then some (str "hello") else none,
      diags := [], writes := 0 } (str "base/f.txt") [(str "zzz", str "y")]).1 (by decide)

/-! ## Claim C6 -/

/-- C6: pairs are applied sequentially against the running content (the loop
feeds each pair the result of the previous one); an exact match replaces all
occurrences — replacing a single-character search whose replacement avoids the
character leaves no occurrence of it at all; and concretely, two pairs in one
block apply cumulatively, the second matching text introduced by the first,
with both occurrences of each search text rewritten. -/
theorem searchReplace_sequential_replace_all (current : Str) (p : Str × Str)
    (ps : List (Str × Str)) (n : Nat) :
    (srLoop (p :: ps) current n =
      srLoop ps (srStep current p n).1 (srStep current p n).2) ∧
    (∀ (x repl : Str) (ch : Char), ch ∉ repl → ch ∉ replaceList x [ch] repl) ∧
    (srLoop [(str "ab", str "cd"), (str "cd", str "ef")] (str "XabYabZ") 0 =
      (str "XefYefZ", 2)) := by
  refine ⟨rfl, ?_, rfl⟩
  intro x repl ch h
  exact not_mem_replaceList_single ch repl h x.length x (le_refl _)

/-- Witness for C6: no occurrence of the searched character survives. -/
theorem searchReplace_sequential_replace_all_witness :
    'a' ∉ replaceList (str "aXaYa") ['a'] (str "b") :=
  (searchReplace_sequential_replace_all [] (str "", str "") [] 0).2.1
    (str "aXaYa") (str "b") 'a' (by decide)

/-! ## Claim C10 -/

/-- C10 (amended): the file's entire prior content is normalized from CRLF to
LF before pair application — so a successful apply rewrites the line endings
even of lines no pair touched (concrete conjunct: only the middle line is
replaced, yet all three lines come out LF-terminated) — and the written
content contains no carriage return (hence no CRLF) provided the normalized
prior content and the replacement spans are free of bare carriage returns.
Without that proviso a replacement span ending in a bare CR can reintroduce a
CRLF (see the counterexample). -/
theorem searchReplace_crlf_normalization (w : World) (path : Str)
    (pairs : List (Str × Str))
    (hO : '\r' ∉ normalizeCRLF ((w.fs path).getD []))
    (hP : ∀ p ∈ pairs, '\r' ∉ p.2) :
    (∀ out, (SearchReplaceApplier.applyPairs w path pairs).1 = Except.ok () →
      (SearchReplaceApplier.applyPairs w path pairs).2.fs path = some out →
      '\r' ∉ out ∧ containsList out (str "\r\n") = false) ∧
    (SearchReplaceApplier.applyPairs
        { fs := fun q => if q = str "p" then some (str "a\r\nb\r\nc") else none,
          diags := [], writes := 0 } (str "p") [(str "b", str "x")]).2.fs (str "p") =
      some (str "a\nx\nc") := by
  refine ⟨?_, rfl⟩
  intro out hok hout
  have hloop : '\r' ∉ (srLoop pairs (normalizeCRLF ((w.fs path).getD [])) 0).1 :=
    srLoop_not_mem '\r' pairs (normalizeCRLF ((w.fs path).getD [])) 0 hP hO
  have hresult : out = (srLoop pairs (normalizeCRLF ((w.fs path).getD [])) 0).1 := by
    unfold SearchReplaceApplier.applyPairs at hok hout
    simp only [] at hok hout
    by_cases hz : (srLoop pairs (normalizeCRLF ((w.fs path).getD [])) 0).2 = 0
    · rw [if_pos hz] at hok
      cases hok
    · rw [if_neg hz] at hok hout
      by_cases he :
          (trimList (srLoop pairs (normalizeCRLF ((w.fs path).getD [])) 0).1).isEmpty = true
      · rw [if_pos he] at hok hout
        rcases hfs : w.fs path with _ | old
        · rw [hfs] at hok
          cases hok
        · rw [hfs] at hout
          simp [fsRemoveOk] at hout
      · rw [if_neg he] at hout
        simp only [fsWrite] at hout
        simp at hout
        exact hout.symm
  rw [hresult]
  refine ⟨hloop, ?_⟩
  exact containsList_eq_false_of_not_mem _ _ '\r' (by decide) hloop

/-- Witness for C10 (amended) on a CR-free file and CR-free pairs. -/
theorem searchReplace_crlf_normalization_witness :
    '\r' ∉ (str "a\nx\nc") ∧ containsList (str "a\nx\nc") (str "\r\n") = false :=
  (searchReplace_crlf_normalization
    { fs := fun q => if q = str "p" then some (str "a\r\nb\r\nc") else none,
      diags := [], writes := 0 } (str "p") [(str "b", str "x")]
    (by decide) (by decide)).1 (str "a\nx\nc") rfl rfl

/-- Counterexample for C10 as stated: a replacement span ending in a bare
carriage return, substituted immediately before an existing LF, makes the
successfully written content contain a CRLF sequence. -/
theorem searchReplace_crlf_counterexample :
    (SearchReplaceApplier.apply
        { fs := fun q => if q = str "base/f.txt" then some (str "a\nb\nc") else none,
          diags := [], writes := 0 } (str "base")
        ⟨str "f.txt", str "<<<<<<< SEARCH\nb=======\nx\r>>>>>>> REPLACE",
          BlockType.SearchReplaceBlock⟩).1 = Except.ok () ∧
    (SearchReplaceApplier.apply
        { fs := fun q => if q = str "base/f.txt" then some (str "a\nb\nc") else none,
          diags := [], writes := 0 } (str "base")
        ⟨str "f.txt", str "<<<<<<< SEARCH\nb=======\nx\r>>>>>>> REPLACE",
          BlockType.SearchReplaceBlock⟩).2.fs (str "base/f.txt") =
      some (str "a\nx\r\nc") ∧
    containsList (str "a\nx\r\nc") (str "\r\n") = true :=
  ⟨rfl, rfl, rfl⟩
